import Mathlib

/-!
# Deposit checker of `ton-bot-example-go` (`src/main.go`)

A shallow embedding of the deposit reconciliation loop of `main.go`
(`startDepositChecker`, `loadLastLT`, `saveLastLT`, `checkUser`, `addBalance`)
together with the two `strconv` functions it calls, and the properties of the
loop that the specification states.

Conventions of the embedding.

* A Go `string` is a Lean `String`; the loops of `strconv` that run over the
  bytes of the string run here over its characters.  Every byte of a
  multi-byte character is `≥ 0x80`, hence not a digit and not a sign, so both
  loops stop with the same error at the same place; `len(s)` is the UTF-8 byte
  length.
* A Go `int` is 64 bits wide; it is a Lean `Int` and the range of the type is
  written out where it matters (`minInt`, `maxInt`, and `% 2 ^ 64` for the
  `uint64` accumulator of `ParseUint`).
* The `Users` table is a finite map from user id to balance, seen as a
  function `Int → Option Balance`.  A balance is a 64-bit SQLite `INTEGER`;
  an addition that leaves the 64-bit range makes it a `REAL`, whose
  floating-point value is not followed.
* A failed type assertion `x.(T)` is a run-time panic; it is the `Except.error`
  of the assertion helpers and the `Outcome.panicked` of the loop.
-/

namespace DepositChecker

/-! ## `strconv` -/

/-- The two errors of `strconv`: `ErrSyntax` (here `invalid`) and `ErrRange`
(here `outOfRange`). -/
inductive NumError where
  | invalid
  | outOfRange
  deriving DecidableEq, Repr

/-- What `strconv.Atoi` returns: the `int` and the error (`none` is `nil`). -/
structure AtoiResult where
  val : Int
  err : Option NumError
  deriving DecidableEq, Repr

/-- Largest value of a 64-bit `int`. -/
def maxInt : Int := 2 ^ 63 - 1

/-- Smallest value of a 64-bit `int`. -/
def minInt : Int := -(2 ^ 63)

/-- Largest value of a `uint64`. -/
def maxUint64 : Nat := 2 ^ 64 - 1

/-- The byte is one of `'0'` .. `'9'`. -/
def isDigitByte (c : Char) : Bool := decide (48 ≤ c.toNat ∧ c.toNat ≤ 57)

/-- The value `c - '0'` of a digit byte. -/
def digitVal (c : Char) : Nat := c.toNat - 48

/-- The digit loop of `strconv.ParseUint(s, 10, 64)`, started with the
accumulator `n`: a byte that is not a decimal digit is a syntax error
(result `0`); an accumulator that would leave the `uint64` range is a range
error (result `maxUint64`), reported as soon as it is met. -/
def parseUintLoop : Nat → List Char → Nat × Option NumError
  | n, [] => (n, none)
  | n, c :: cs =>
    if !isDigitByte c then (0, some .invalid)
    else if n ≥ maxUint64 / 10 + 1 then (maxUint64, some .outOfRange)
    else
      let n10 := n * 10
      let n1 := (n10 + digitVal c) % 2 ^ 64
      if n1 < n10 ∨ n1 > maxUint64 then (maxUint64, some .outOfRange)
      else parseUintLoop n1 cs

/-- The function `strconv.ParseUint(s, 10, 64)`. -/
def ParseUint (s : List Char) : Nat × Option NumError :=
  if s = [] then (0, some .invalid) else parseUintLoop 0 s

/-- The string without its leading sign (`s = s[1:]` when `s[0]` is `'+'` or
`'-'`). -/
def stripSign : List Char → List Char
  | [] => []
  | c :: t => if c = '-' ∨ c = '+' then t else c :: t

/-- The test `s0[0] == '-'`. -/
def isNeg (s : List Char) : Bool := s.head? = some '-'

/-- The function `strconv.ParseInt(s, 10, 0)` on a 64-bit platform. -/
def ParseInt (s : List Char) : AtoiResult :=
  if s = [] then ⟨0, some .invalid⟩
  else
    let r := ParseUint (stripSign s)
    if r.2 = some .invalid then ⟨0, some .invalid⟩
    else if !isNeg s ∧ r.1 ≥ 2 ^ 63 then ⟨2 ^ 63 - 1, some .outOfRange⟩
    else if isNeg s ∧ r.1 > 2 ^ 63 then ⟨-(2 ^ 63), some .outOfRange⟩
    else if isNeg s then ⟨-(r.1 : Int), none⟩
    else ⟨(r.1 : Int), none⟩

/-- The digit loop of the fast path of `strconv.Atoi`; `none` when a byte is
not a decimal digit. -/
def atoiFastLoop : Nat → List Char → Option Nat
  | n, [] => some n
  | n, ch :: rest =>
    if isDigitByte ch then atoiFastLoop (n * 10 + digitVal ch) rest else none

/-- The function `strconv.Atoi` on a 64-bit platform: the fast path for
strings of 1 to 18 bytes, `ParseInt` for the others. -/
def Atoi (s : String) : AtoiResult :=
  let sLen := s.utf8ByteSize
  if 0 < sLen ∧ sLen < 19 then
    let body := stripSign s.data
    if body.length < 1 then ⟨0, some .invalid⟩
    else
      match atoiFastLoop 0 body with
      | none => ⟨0, some .invalid⟩
      | some n => if isNeg s.data then ⟨-(n : Int), none⟩ else ⟨(n : Int), none⟩
  else ParseInt s.data

/-- The function `strconv.Itoa`: the decimal digits of the number, after a
`-` when it is negative. -/
def Itoa (n : Int) : String :=
  if n < 0 then ⟨'-' :: Nat.toDigits 10 n.natAbs⟩ else ⟨Nat.toDigits 10 n.natAbs⟩

/-! ## Decoded JSON and type assertions -/

/-- A value of type `any` as `encoding/json` produces it: `nil`, `bool`,
`float64` (kept as the text of the number), `string`, `[]any` and
`map[string]any` (kept as an association list, first binding of a key). -/
inductive Any where
  | nil
  | bool (b : Bool)
  | num (text : String)
  | str (s : String)
  | arr (xs : List Any)
  | obj (m : List (String × Any))

/-- A run-time panic of a failed single-value type assertion. -/
inductive Fault where
  | interfaceConversion
  deriving DecidableEq, Repr

/-- The map index `m[k]`: the zero value `nil` when the key is absent. -/
def index (m : List (String × Any)) (k : String) : Any :=
  (m.lookup k).getD Any.nil

/-- The assertion `x.([]any)`. -/
def assertSlice : Any → Except Fault (List Any)
  | .arr xs => .ok xs
  | _ => .error .interfaceConversion

/-- The assertion `x.(map[string]any)`. -/
def assertMap : Any → Except Fault (List (String × Any))
  | .obj m => .ok m
  | _ => .error .interfaceConversion

/-- The assertion `x.(string)`. -/
def assertString : Any → Except Fault String
  | .str s => .ok s
  | _ => .error .interfaceConversion

/-- The two-value assertion `s, ok := x.(string)`, which never panics. -/
def commaOkString : Any → String × Bool
  | .str s => (s, true)
  | _ => ("", false)

/-! ## State of the process -/

/-- The `balance` cell of a row of `Users`: a 64-bit SQLite `INTEGER`, or the
`REAL` it has become once an addition overflowed (at or above 2^63, where the
column keeps it a `REAL`). -/
inductive Balance where
  | integer (n : Int)
  | real
  deriving DecidableEq, Repr

/-- The SQL expression `balance + ?` stored back into the cell: the integer
sum while it is of the 64-bit range, a `REAL` when the integer addition
overflows.  A `REAL` stays a `REAL` under the positive amounts the loop adds
(line 125 lets only `value > 0` through). -/
def Balance.add (cell : Balance) (amount : Int) : Balance :=
  match cell with
  | .integer b =>
    if minInt ≤ b + amount ∧ b + amount ≤ maxInt then .integer (b + amount) else .real
  | .real => .real

/-- What the deposit checker reads and writes: the variable `lastLT`, the
`Users` table, the file `last_lt.txt` (`none` when it does not exist), and two
logs kept for the statements: the arguments of the calls of `saveLastLT` and
the `(user id, value)` of the calls of `bot.Send`, oldest first. -/
structure State where
  lastLT : Int
  users : Int → Option Balance
  file : Option String
  saved : List Int
  sent : List (Int × Int)

/-- The function `checkUser`: the `SELECT` finds a row. -/
def checkUser (users : Int → Option Balance) (uid : Int) : Bool :=
  (users uid).isSome

/-- The function `addBalance`: `UPDATE Users SET balance = balance + ? WHERE
uid = ?`, which changes the row of `uid` when there is one. -/
def addBalance (users : Int → Option Balance) (uid amount : Int) : Int → Option Balance :=
  fun u => if u = uid then (users u).map (fun cell => cell.add amount) else users u

/-- The function `loadLastLT`: `0` when the file cannot be read, else the
value `strconv.Atoi` returns for its content, the error being dropped. -/
def loadLastLT (file : Option String) : Int :=
  match file with
  | none => 0
  | some data => (Atoi data).val

/-- The function `saveLastLT`: the file then holds `strconv.Itoa(lt)` (the
write is taken to succeed; its error is dropped by the code). -/
def saveLastLT (s : State) (lt : Int) : State :=
  { s with file := some (Itoa lt), saved := s.saved ++ [lt] }

/-- Lines 125-130: the credit and the notification, made when `value > 0`,
the message is a string, it parses and the user exists. -/
def creditIfMatched (s : State) (value : Int) (uid : String) (ok : Bool) : State :=
  if value > 0 ∧ ok = true then
    let r := Atoi uid
    if r.err = none ∧ checkUser s.users r.val = true then
      { s with users := addBalance s.users r.val value, sent := s.sent ++ [(r.val, value)] }
    else s
  else s

/-- Lines 112-133, the body of the `range` loop for one element `tx` of
`result["result"]`.  `Except.error` is a panic of a type assertion; every
assertion precedes the first write of the iteration. -/
def loopBody (s : State) (tx : Any) : Except Fault State :=
  match assertMap tx with
  | .error e => .error e
  | .ok transaction =>
    match assertMap (index transaction "transaction_id") with
    | .error e => .error e
    | .ok tid =>
      match assertString (index tid "lt") with
      | .error e => .error e
      | .ok ltStr =>
        let r := Atoi ltStr
        if r.err ≠ none then .ok s
        else if r.val ≤ s.lastLT then .ok s
        else
          match assertMap (index transaction "in_msg") with
          | .error e => .error e
          | .ok inMsg =>
            match assertString (index inMsg "value") with
            | .error e => .error e
            | .ok valueStr =>
              let value := (Atoi valueStr).val
              let m := commaOkString (index inMsg "message")
              let s1 := creditIfMatched s value m.1 m.2
              .ok (saveLastLT { s1 with lastLT := r.val } r.val)

/-- How a run of the checker stands: still running with a state, or stopped by
a panic in the state it had reached. -/
inductive Outcome where
  | running (s : State)
  | panicked (s : State)

/-- The state an outcome carries. -/
def Outcome.state : Outcome → State
  | .running s => s
  | .panicked s => s

/-- An outcome is a panic. -/
def Outcome.isPanic : Outcome → Bool
  | .running _ => false
  | .panicked _ => true

/-- Line 111, the `range` loop over the decoded transactions. -/
def rangeLoop : State → List Any → Outcome
  | s, [] => .running s
  | s, tx :: rest =>
    match loopBody s tx with
    | .error _ => .panicked s
    | .ok s1 => rangeLoop s1 rest

/-- What one poll of the API gives: `http.Get` fails, `json.Unmarshal` fails,
or the body decodes into the map `result`. -/
inductive Response where
  | getFailed
  | unmarshalFailed
  | decoded (result : List (String × Any))

/-- Lines 94-134, one iteration of the endless `for`. -/
def cycle (s : State) (resp : Response) : Outcome :=
  match resp with
  | .getFailed => .running s
  | .unmarshalFailed => .running s
  | .decoded result =>
    match assertSlice (index result "result") with
    | .error _ => .panicked s
    | .ok txs => rangeLoop s txs

/-- The endless `for` on the responses of successive polls; a panic ends it. -/
def runCycles : State → List Response → Outcome
  | s, [] => .running s
  | s, resp :: rest =>
    match cycle s resp with
    | .panicked s1 => .panicked s1
    | .running s1 => runCycles s1 rest

/-- The function `startDepositChecker`: `lastLT` is loaded, then the polls
run. -/
def startDepositChecker (users : Int → Option Balance) (file : Option String)
    (resps : List Response) : Outcome :=
  runCycles ⟨loadLastLT file, users, file, [], []⟩ resps

/-! ## Feed records of the documented shape -/

/-- A feed record of the shape the API documents: the strings under
`transaction_id.lt` and `in_msg.value`, and the string under `in_msg.message`
when there is one. -/
structure RawTransaction where
  lt : String
  value : String
  comment : Option String

/-- The decoded JSON of a feed record. -/
def RawTransaction.toAny (r : RawTransaction) : Any :=
  .obj [("transaction_id", .obj [("lt", .str r.lt)]),
        ("in_msg", .obj (match r.comment with
          | some c => [("value", .str r.value), ("message", .str c)]
          | none => [("value", .str r.value)]))]

/-- The decoded response whose `result` is the batch. -/
def feedOf (batch : List RawTransaction) : Response :=
  .decoded [("result", .arr (batch.map RawTransaction.toAny))]

/-! ## Vocabulary of the statements -/

/-- The number a run of digits denotes when read after the accumulator `n`. -/
def decFold (n : Nat) (ds : List Char) : Nat :=
  ds.foldl (fun a c => a * 10 + digitVal c) n

/-- Every byte of the run is a decimal digit. -/
def allDigits (ds : List Char) : Prop := ∀ c ∈ ds, isDigitByte c = true

/-- The content is a decimal integer: an optional sign, then one or more
decimal digits and nothing else. -/
def isDecimal (s : String) : Bool :=
  !(stripSign s.data).isEmpty && (stripSign s.data).all isDigitByte

/-- The integer a decimal content denotes. -/
def decimalValue (s : String) : Int :=
  if isNeg s.data then -(decFold 0 (stripSign s.data) : Int)
  else (decFold 0 (stripSign s.data) : Int)

/-- The digits a content starts with, after its sign. -/
def leadingDigits (s : String) : List Char := (stripSign s.data).takeWhile isDigitByte

/-- The nearest value of the `int` range. -/
def clampInt (v : Int) : Int :=
  if v < minInt then minInt else if v > maxInt then maxInt else v

/-- The payment intent of the specification (§3): `(userID, amount, lt)`. -/
structure PaymentIntent where
  userID : Int
  amount : Int
  lt : Int
  deriving DecidableEq, Repr

/-- The classifier in the words of the specification (§4.3): no intent when
`lt` does not parse, when `value` does not parse as a positive integer, or
when the comment is not a decimal integer; the intent otherwise. -/
def classify (r : RawTransaction) : Option PaymentIntent :=
  if (Atoi r.lt).err ≠ none then none
  else if (Atoi r.value).err ≠ none ∨ (Atoi r.value).val ≤ 0 then none
  else
    match r.comment with
    | none => none
    | some c =>
      if (Atoi c).err ≠ none then none
      else some ⟨(Atoi c).val, (Atoi r.value).val, (Atoi r.lt).val⟩

/-- The `lt` of a record when its string parses. -/
def ltOf (r : RawTransaction) : Option Int :=
  if (Atoi r.lt).err = none then some (Atoi r.lt).val else none

/-- The larger of `m` and the `lt` of the record, `m` when it does not
parse. -/
def advance (m : Int) (r : RawTransaction) : Int :=
  match ltOf r with
  | some l => max m l
  | none => m

/-- The maximum of `c` and the parsable `lt` values of the records. -/
def runningMax (c : Int) (batch : List RawTransaction) : Int := batch.foldl advance c

/-- What a record adds to the balance of `uid` when it is measured against
the checkpoint `m`: its amount when it classifies into an intent for `uid`
with `lt` above `m`, nothing otherwise. -/
def credits (uid : Int) (m : Int) (r : RawTransaction) : Int :=
  match classify r with
  | some p => if m < p.lt ∧ p.userID = uid then p.amount else 0
  | none => 0

/-- The credit of `uid` when every record is measured against the checkpoint
`c` held at the start of the cycle. -/
def claimedCredit (uid : Int) (c : Int) (batch : List RawTransaction) : Int :=
  (batch.map (credits uid c)).sum

/-- The credit of `uid` when every record is measured against the maximum of
`c` and the parsable `lt` values of the records before it in the batch. -/
def runningCredit (uid : Int) : Int → List RawTransaction → Int
  | _, [] => 0
  | m, r :: rest => credits uid m r + runningCredit uid (advance m r) rest

/-- The loop body on a record of the documented shape, where no assertion
fails (see `loopBody_toAny`). -/
def stepTx (s : State) (r : RawTransaction) : State :=
  if (Atoi r.lt).err ≠ none then s
  else if (Atoi r.lt).val ≤ s.lastLT then s
  else
    saveLastLT
      { creditIfMatched s (Atoi r.value).val (r.comment.getD "") r.comment.isSome with
        lastLT := (Atoi r.lt).val } (Atoi r.lt).val

/-- The saved values are increasing and none exceeds `lastLT`. -/
def SavedOrdered (s : State) : Prop :=
  (∀ x ∈ s.saved, x ≤ s.lastLT) ∧ s.saved.Pairwise (fun a b => a < b)

/-- The record reaches `addBalance` for `uid` on a value string that did not
parse, when it is measured against the checkpoint `m`: its `lt` parses above
`m`, `strconv.Atoi` reports an error for its value and still returns a
positive number, and its comment parses to `uid`. -/
def creditedUnparsed (uid : Int) (m : Int) (r : RawTransaction) : Bool :=
  match r.comment with
  | none => false
  | some c =>
    decide ((Atoi r.lt).err = none ∧ m < (Atoi r.lt).val ∧ (Atoi r.value).err ≠ none ∧
      0 < (Atoi r.value).val ∧ (Atoi c).err = none ∧ (Atoi c).val = uid)

/-- Some record of the batch reaches `addBalance` for `uid` on a value string
that did not parse, every record being measured against the maximum of `c` and
the parsable `lt` values of the records before it. -/
def anyCreditedUnparsed (uid : Int) : Int → List RawTransaction → Bool
  | _, [] => false
  | m, r :: rest => creditedUnparsed uid m r || anyCreditedUnparsed uid (advance m r) rest

/-- A `Users` table with one row, of integer balance. -/
def oneAccount (uid balance : Int) : Int → Option Balance :=
  fun u => if u = uid then some (.integer balance) else none

/-- The checkpoint is saved, the process starts again and loads it. -/
def restart (s : State) : State :=
  { saveLastLT s s.lastLT with lastLT := loadLastLT (saveLastLT s s.lastLT).file }

/-! ## Lemmas -/

theorem isDigitByte_digitVal {c : Char} (h : isDigitByte c = true) : digitVal c ≤ 9 := by
  simp only [isDigitByte, decide_eq_true_eq] at h
  simp only [digitVal]
  omega

theorem decFold_cons (n : Nat) (c : Char) (ds : List Char) :
    decFold n (c :: ds) = decFold (n * 10 + digitVal c) ds := rfl

theorem decFold_nil (n : Nat) : decFold n [] = n := rfl

theorem le_decFold (ds : List Char) : ∀ n, n ≤ decFold n ds := by
  induction ds with
  | nil => intro n; exact le_refl _
  | cons c ds ih =>
    intro n
    rw [decFold_cons]
    exact le_trans (by omega) (ih _)

theorem decFold_lt (ds : List Char) :
    ∀ n, allDigits ds → decFold n ds < (n + 1) * 10 ^ ds.length := by
  induction ds with
  | nil => intro n _; simp [decFold_nil]
  | cons c ds ih =>
    intro n h
    have hc : digitVal c ≤ 9 := isDigitByte_digitVal (h c (List.mem_cons_self _ _))
    have hds : allDigits ds := fun x hx => h x (List.mem_cons_of_mem _ hx)
    rw [decFold_cons, List.length_cons, pow_succ]
    calc decFold (n * 10 + digitVal c) ds
        < (n * 10 + digitVal c + 1) * 10 ^ ds.length := ih _ hds
      _ ≤ ((n + 1) * 10) * 10 ^ ds.length := Nat.mul_le_mul_right _ (by omega)
      _ = (n + 1) * (10 ^ ds.length * 10) := by ring

theorem atoiFastLoop_digits (ds : List Char) :
    ∀ n, allDigits ds → atoiFastLoop n ds = some (decFold n ds) := by
  induction ds with
  | nil => intro n _; rfl
  | cons c ds ih =>
    intro n h
    have hc := h c (List.mem_cons_self _ _)
    have hds : allDigits ds := fun x hx => h x (List.mem_cons_of_mem _ hx)
    simp only [atoiFastLoop, hc, if_true, decFold_cons]
    exact ih _ hds

theorem atoiFastLoop_nondigit (pre : List Char) (c : Char) (rest : List Char)
    (hc : isDigitByte c = false) :
    ∀ n, allDigits pre → atoiFastLoop n (pre ++ c :: rest) = none := by
  induction pre with
  | nil => intro n _; simp [atoiFastLoop, hc]
  | cons d ds ih =>
    intro n h
    have hd := h d (List.mem_cons_self _ _)
    have hds : allDigits ds := fun x hx => h x (List.mem_cons_of_mem _ hx)
    simp only [List.cons_append, atoiFastLoop, hd, if_true]
    exact ih _ hds

theorem parseUintLoop_digits (ds : List Char) :
    ∀ n, n ≤ maxUint64 → allDigits ds →
      parseUintLoop n ds =
        if decFold n ds ≤ maxUint64 then (decFold n ds, none)
        else (maxUint64, some .outOfRange) := by
  induction ds with
  | nil => intro n hn _; simp [parseUintLoop, decFold_nil, hn]
  | cons c ds ih =>
    intro n hn h
    have hc := h c (List.mem_cons_self _ _)
    have hds : allDigits ds := fun x hx => h x (List.mem_cons_of_mem _ hx)
    have hv : digitVal c ≤ 9 := isDigitByte_digitVal hc
    have hge := le_decFold ds (n * 10 + digitVal c)
    simp only [maxUint64] at hn hge ⊢
    rw [decFold_cons]
    simp only [parseUintLoop, hc, Bool.not_true, Bool.false_eq_true, if_false, maxUint64]
    by_cases h1 : n ≥ (2 ^ 64 - 1) / 10 + 1
    · rw [if_pos h1, if_neg (by omega)]
    · rw [if_neg h1]
      by_cases h2 : n * 10 + digitVal c < 2 ^ 64
      · have hm : (n * 10 + digitVal c) % 2 ^ 64 = n * 10 + digitVal c := Nat.mod_eq_of_lt h2
        simp only [hm]
        rw [if_neg (by omega)]
        have := ih (n * 10 + digitVal c) (by simp only [maxUint64]; omega) hds
        simpa only [maxUint64] using this
      · have hm : (n * 10 + digitVal c) % 2 ^ 64 < n * 10 := by omega
        rw [if_pos (Or.inl hm), if_neg (by omega)]

theorem parseUintLoop_nondigit (pre : List Char) (c : Char) (rest : List Char)
    (hc : isDigitByte c = false) :
    ∀ n, n ≤ maxUint64 → allDigits pre →
      parseUintLoop n (pre ++ c :: rest) =
        if decFold n pre ≤ maxUint64 then (0, some .invalid)
        else (maxUint64, some .outOfRange) := by
  induction pre with
  | nil => intro n hn _; simp [parseUintLoop, decFold_nil, hn, hc]
  | cons d ds ih =>
    intro n hn h
    have hd := h d (List.mem_cons_self _ _)
    have hds : allDigits ds := fun x hx => h x (List.mem_cons_of_mem _ hx)
    have hv : digitVal d ≤ 9 := isDigitByte_digitVal hd
    have hge := le_decFold ds (n * 10 + digitVal d)
    simp only [maxUint64] at hn hge ⊢
    rw [decFold_cons, List.cons_append]
    simp only [parseUintLoop, hd, Bool.not_true, Bool.false_eq_true, if_false, maxUint64]
    by_cases h1 : n ≥ (2 ^ 64 - 1) / 10 + 1
    · rw [if_pos h1, if_neg (by omega)]
    · rw [if_neg h1]
      by_cases h2 : n * 10 + digitVal d < 2 ^ 64
      · have hm : (n * 10 + digitVal d) % 2 ^ 64 = n * 10 + digitVal d := Nat.mod_eq_of_lt h2
        simp only [hm]
        rw [if_neg (by omega)]
        have := ih (n * 10 + digitVal d) (by simp only [maxUint64]; omega) hds
        simpa only [maxUint64] using this
      · have hm : (n * 10 + digitVal d) % 2 ^ 64 < n * 10 := by omega
        rw [if_pos (Or.inl hm), if_neg (by omega)]

theorem length_le_utf8ByteSize_go (cs : List Char) : cs.length ≤ String.utf8ByteSize.go cs := by
  induction cs with
  | nil => simp [String.utf8ByteSize.go]
  | cons c cs ih =>
    have := Char.utf8Size_pos c
    simp only [String.utf8ByteSize.go, List.length_cons]
    omega

theorem length_le_utf8ByteSize (s : String) : s.data.length ≤ s.utf8ByteSize := by
  cases s with
  | mk d => exact length_le_utf8ByteSize_go d

theorem stripSign_length_le (cs : List Char) : (stripSign cs).length ≤ cs.length := by
  cases cs with
  | nil => simp [stripSign]
  | cons c t =>
    simp only [stripSign]
    split_ifs <;> simp

theorem stripSign_ne_nil {cs : List Char} (h : stripSign cs ≠ []) : cs ≠ [] := by
  intro h0
  rw [h0] at h
  exact h rfl

theorem Atoi_of_digits (s : String) (hne : stripSign s.data ≠ [])
    (hd : allDigits (stripSign s.data)) :
    Atoi s =
      if isNeg s.data = true then
        (if decFold 0 (stripSign s.data) > 2 ^ 63 then ⟨minInt, some .outOfRange⟩
         else ⟨-(decFold 0 (stripSign s.data) : Int), none⟩)
      else
        (if decFold 0 (stripSign s.data) ≥ 2 ^ 63 then ⟨maxInt, some .outOfRange⟩
         else ⟨(decFold 0 (stripSign s.data) : Int), none⟩) := by
  have hlen : 0 < (stripSign s.data).length := List.length_pos.mpr hne
  unfold Atoi
  simp only []
  by_cases hfast : 0 < s.utf8ByteSize ∧ s.utf8ByteSize < 19
  · rw [if_pos hfast, if_neg (by omega), atoiFastLoop_digits _ _ hd]
    have h1 := decFold_lt (stripSign s.data) 0 hd
    have h2 := stripSign_length_le s.data
    have h3 := length_le_utf8ByteSize s
    have h4 : (10 : Nat) ^ (stripSign s.data).length ≤ 10 ^ 18 :=
      Nat.pow_le_pow_right (by norm_num) (by omega)
    have h5 : decFold 0 (stripSign s.data) < 2 ^ 63 := by
      have : (10 : Nat) ^ 18 < 2 ^ 63 := by norm_num
      omega
    simp only []
    by_cases hneg : isNeg s.data = true
    · rw [if_pos hneg, if_pos hneg, if_neg (by omega)]
    · rw [if_neg hneg, if_neg hneg, if_neg (by omega)]
  · rw [if_neg hfast]
    have hdata := stripSign_ne_nil hne
    have hp := parseUintLoop_digits (stripSign s.data) 0 (by simp [maxUint64]) hd
    simp only [ParseInt, ParseUint, if_neg hdata, if_neg hne, hp]
    by_cases hneg : isNeg s.data = true
    · simp only [hneg, if_true]
      by_cases hu : decFold 0 (stripSign s.data) ≤ maxUint64
      · simp only [if_pos hu]
        by_cases hr : 9223372036854775808 < decFold 0 (stripSign s.data)
        · simp [hr, minInt]
        · simp [hr]
      · simp only [if_neg hu]
        have : 9223372036854775808 < decFold 0 (stripSign s.data) := by
          simp only [maxUint64] at hu; omega
        simp [this, maxUint64, minInt]
    · simp only [hneg]
      by_cases hu : decFold 0 (stripSign s.data) ≤ maxUint64
      · simp only [if_pos hu]
        by_cases hr : 9223372036854775808 ≤ decFold 0 (stripSign s.data)
        · simp [hr, maxInt]
        · simp [hr]
      · simp only [if_neg hu]
        have : 9223372036854775808 ≤ decFold 0 (stripSign s.data) := by
          simp only [maxUint64] at hu; omega
        simp [this, maxUint64, maxInt]

theorem Atoi_of_empty_body (s : String) (he : stripSign s.data = []) :
    Atoi s = ⟨0, some .invalid⟩ := by
  unfold Atoi
  simp only []
  by_cases hfast : 0 < s.utf8ByteSize ∧ s.utf8ByteSize < 19
  · rw [if_pos hfast, he]
    simp
  · rw [if_neg hfast]
    simp [ParseInt, ParseUint, he]

theorem Atoi_of_nondigit (s : String) (pre : List Char) (c : Char) (rest : List Char)
    (hb : stripSign s.data = pre ++ c :: rest) (hpre : allDigits pre)
    (hc : isDigitByte c = false) :
    Atoi s =
      if decFold 0 pre ≤ maxUint64 then ⟨0, some .invalid⟩
      else if isNeg s.data = true then ⟨minInt, some .outOfRange⟩
      else ⟨maxInt, some .outOfRange⟩ := by
  have hne : stripSign s.data ≠ [] := by rw [hb]; simp
  have hlen : 0 < (stripSign s.data).length := List.length_pos.mpr hne
  unfold Atoi
  simp only []
  by_cases hfast : 0 < s.utf8ByteSize ∧ s.utf8ByteSize < 19
  · rw [if_pos hfast, if_neg (by omega), hb, atoiFastLoop_nondigit pre c rest hc 0 hpre]
    have h1 := decFold_lt pre 0 hpre
    have h2 := stripSign_length_le s.data
    have h3 := length_le_utf8ByteSize s
    have h6 : pre.length ≤ 18 := by
      have : (stripSign s.data).length = pre.length + (rest.length + 1) := by
        rw [hb]; simp
      omega
    have h4 : (10 : Nat) ^ pre.length ≤ 10 ^ 18 :=
      Nat.pow_le_pow_right (by norm_num) h6
    have h5 : decFold 0 pre ≤ maxUint64 := by
      have : (10 : Nat) ^ 18 < 2 ^ 64 - 1 := by norm_num
      simp only [maxUint64]
      omega
    simp only [if_pos h5]
  · rw [if_neg hfast]
    have hdata := stripSign_ne_nil hne
    have hp := parseUintLoop_nondigit pre c rest hc 0 (by simp [maxUint64]) hpre
    simp only [ParseInt, ParseUint, if_neg hdata, if_neg hne]
    rw [hb, hp]
    by_cases hu : decFold 0 pre ≤ maxUint64
    · simp [hu]
    · simp only [if_neg hu]
      by_cases hneg : isNeg s.data = true
      · simp [hneg, maxUint64, minInt]
      · simp [hneg, maxUint64, maxInt]

theorem Atoi_ok_range (s : String) (h : (Atoi s).err = none) :
    minInt ≤ (Atoi s).val ∧ (Atoi s).val ≤ maxInt := by
  by_cases he : stripSign s.data = []
  · rw [Atoi_of_empty_body s he] at h
    simp at h
  · by_cases hd : allDigits (stripSign s.data)
    · rw [Atoi_of_digits s he hd] at h ⊢
      simp only [minInt, maxInt] at h ⊢
      split_ifs at h ⊢ <;> simp at h ⊢ <;> omega
    · exfalso
      have hsplit := List.takeWhile_append_dropWhile isDigitByte (stripSign s.data)
      have hdrop : (stripSign s.data).dropWhile isDigitByte ≠ [] := by
        intro h0
        apply hd
        intro c hc
        exact (List.dropWhile_eq_nil_iff.mp h0) c hc
      obtain ⟨c, rest, hcr⟩ := List.exists_cons_of_ne_nil hdrop
      have hcnd : isDigitByte c = false := by
        have := List.head_dropWhile_not isDigitByte (stripSign s.data) hdrop
        simp only [hcr, List.head_cons] at this
        simpa using this
      have hpre : allDigits ((stripSign s.data).takeWhile isDigitByte) := by
        intro x hx
        exact (List.mem_takeWhile_imp hx)
      rw [hcr] at hsplit
      rw [Atoi_of_nondigit s _ c rest hsplit.symm hpre hcnd] at h
      split_ifs at h

theorem digitChar_spec (m : Nat) (h : m < 10) :
    isDigitByte (Nat.digitChar m) = true ∧ digitVal (Nat.digitChar m) = m := by
  interval_cases m <;> exact ⟨by decide, by decide⟩

theorem toDigitsCore_spec (fuel : Nat) :
    ∀ (n : Nat) (acc : List Char), n < fuel → allDigits acc →
      allDigits (Nat.toDigitsCore 10 fuel n acc) ∧ Nat.toDigitsCore 10 fuel n acc ≠ [] ∧
        decFold 0 (Nat.toDigitsCore 10 fuel n acc) = decFold n acc := by
  induction fuel with
  | zero => intro n acc h; omega
  | succ fuel ih =>
    intro n acc hn hacc
    obtain ⟨hdig, hval⟩ := digitChar_spec (n % 10) (Nat.mod_lt _ (by norm_num))
    have hacc1 : allDigits (Nat.digitChar (n % 10) :: acc) := by
      intro c hc
      rcases List.mem_cons.mp hc with rfl | hc
      · exact hdig
      · exact hacc c hc
    have hfold : decFold (n / 10) (Nat.digitChar (n % 10) :: acc) = decFold n acc := by
      rw [decFold_cons, hval]
      congr 1
      omega
    simp only [Nat.toDigitsCore]
    by_cases h0 : n / 10 = 0
    · rw [if_pos h0]
      refine ⟨hacc1, by simp, ?_⟩
      rw [← hfold, h0]
    · rw [if_neg h0]
      obtain ⟨h1, h2, h3⟩ := ih (n / 10) (Nat.digitChar (n % 10) :: acc) (by omega) hacc1
      exact ⟨h1, h2, by rw [h3, hfold]⟩

theorem toDigits_spec (n : Nat) :
    allDigits (Nat.toDigits 10 n) ∧ Nat.toDigits 10 n ≠ [] ∧
      decFold 0 (Nat.toDigits 10 n) = n := by
  have h := toDigitsCore_spec (n + 1) n [] (by omega) (by intro c hc; simp at hc)
  simpa [Nat.toDigits, decFold_nil] using h

theorem stripSign_of_digits {ds : List Char} (h : allDigits ds) :
    stripSign ds = ds ∧ isNeg ds = false := by
  cases ds with
  | nil => exact ⟨rfl, by decide⟩
  | cons c t =>
    have hc : isDigitByte c = true := h c (List.mem_cons_self _ _)
    have h1 : c ≠ '-' := by rintro rfl; exact absurd hc (by decide)
    have h2 : c ≠ '+' := by rintro rfl; exact absurd hc (by decide)
    constructor
    · simp [stripSign, h1, h2]
    · simp [isNeg, h1]

theorem Atoi_Itoa (n : Int) (h1 : minInt ≤ n) (h2 : n ≤ maxInt) :
    Atoi (Itoa n) = ⟨n, none⟩ := by
  obtain ⟨hd, hne, hv⟩ := toDigits_spec n.natAbs
  simp only [minInt, maxInt] at h1 h2
  by_cases hn : n < 0
  · have hdata : (Itoa n).data = '-' :: Nat.toDigits 10 n.natAbs := by
      simp [Itoa, hn]
    have hstrip : stripSign (Itoa n).data = Nat.toDigits 10 n.natAbs := by
      rw [hdata]; simp [stripSign]
    have hneg : isNeg (Itoa n).data = true := by
      rw [hdata]; simp [isNeg]
    rw [Atoi_of_digits (Itoa n) (by rw [hstrip]; exact hne) (by rw [hstrip]; exact hd)]
    rw [hstrip, hv, if_pos hneg, if_neg (by omega)]
    congr 1
    omega
  · have hdata : (Itoa n).data = Nat.toDigits 10 n.natAbs := by
      simp [Itoa, hn]
    obtain ⟨hs, hnn⟩ := stripSign_of_digits hd
    have hstrip : stripSign (Itoa n).data = Nat.toDigits 10 n.natAbs := by
      rw [hdata]; exact hs
    have hneg : ¬ isNeg (Itoa n).data = true := by
      rw [hdata, hnn]; simp
    rw [Atoi_of_digits (Itoa n) (by rw [hstrip]; exact hne) (by rw [hstrip]; exact hd)]
    rw [hstrip, hv, if_neg hneg, if_neg (by omega)]
    congr 1
    omega

theorem Atoi_cases (s : String) :
    Atoi s = ⟨0, some .invalid⟩ ∨ Atoi s = ⟨minInt, some .outOfRange⟩ ∨
      Atoi s = ⟨maxInt, some .outOfRange⟩ ∨ (Atoi s).err = none := by
  by_cases he : stripSign s.data = []
  · exact Or.inl (Atoi_of_empty_body s he)
  · by_cases hd : allDigits (stripSign s.data)
    · rw [Atoi_of_digits s he hd]
      split_ifs <;> simp
    · have hsplit := List.takeWhile_append_dropWhile isDigitByte (stripSign s.data)
      have hdrop : (stripSign s.data).dropWhile isDigitByte ≠ [] := by
        intro h0
        exact hd (fun c hc => (List.dropWhile_eq_nil_iff.mp h0) c hc)
      obtain ⟨c, rest, hcr⟩ := List.exists_cons_of_ne_nil hdrop
      have hcnd : isDigitByte c = false := by
        have := List.head_dropWhile_not isDigitByte (stripSign s.data) hdrop
        simp only [hcr, List.head_cons] at this
        simpa using this
      have hpre : allDigits ((stripSign s.data).takeWhile isDigitByte) :=
        fun x hx => List.mem_takeWhile_imp hx
      rw [hcr] at hsplit
      rw [Atoi_of_nondigit s _ c rest hsplit.symm hpre hcnd]
      split_ifs <;> simp

theorem loopBody_toAny (s : State) (r : RawTransaction) :
    loopBody s r.toAny = .ok (stepTx s r) := by
  cases r with
  | mk lt value comment =>
    cases comment <;>
      simp [loopBody, RawTransaction.toAny, assertMap, assertString, index, List.lookup,
        commaOkString, stepTx] <;> split_ifs <;> rfl

theorem rangeLoop_map (batch : List RawTransaction) :
    ∀ s : State, rangeLoop s (batch.map RawTransaction.toAny) = .running (batch.foldl stepTx s) := by
  induction batch with
  | nil => intro s; rfl
  | cons r rest ih =>
    intro s
    simp only [List.map_cons, rangeLoop, loopBody_toAny, List.foldl_cons]
    exact ih _

theorem cycle_feedOf (s : State) (batch : List RawTransaction) :
    cycle s (feedOf batch) = .running (batch.foldl stepTx s) := by
  simp [cycle, feedOf, index, List.lookup, assertSlice, rangeLoop_map]

theorem runCycles_feedOf (batches : List (List RawTransaction)) :
    ∀ s : State, runCycles s (batches.map feedOf) = .running (batches.flatten.foldl stepTx s) := by
  induction batches with
  | nil => intro s; rfl
  | cons b rest ih =>
    intro s
    simp only [List.map_cons, runCycles, cycle_feedOf, List.flatten_cons, List.foldl_append]
    exact ih _

theorem stepTx_lastLT (s : State) (r : RawTransaction) :
    (stepTx s r).lastLT = advance s.lastLT r := by
  unfold stepTx advance ltOf
  by_cases h1 : (Atoi r.lt).err = none
  · by_cases h2 : (Atoi r.lt).val ≤ s.lastLT
    · simp [h1, h2]
    · simp [h1, h2, saveLastLT]
      omega
  · simp [h1]

theorem foldl_stepTx_lastLT (batch : List RawTransaction) :
    ∀ s : State, (batch.foldl stepTx s).lastLT = runningMax s.lastLT batch := by
  induction batch with
  | nil => intro s; rfl
  | cons r rest ih =>
    intro s
    simp only [List.foldl_cons, runningMax]
    rw [ih, stepTx_lastLT]
    rfl

theorem le_advance (m : Int) (r : RawTransaction) : m ≤ advance m r := by
  unfold advance
  split
  · exact le_max_left _ _
  · exact le_refl _

theorem le_runningMax (batch : List RawTransaction) : ∀ c, c ≤ runningMax c batch := by
  induction batch with
  | nil => intro c; exact le_refl _
  | cons r rest ih =>
    intro c
    exact le_trans (le_advance c r) (ih _)

theorem runningMax_ge (batch : List RawTransaction) :
    ∀ c, ∀ r ∈ batch, ∀ l, ltOf r = some l → l ≤ runningMax c batch := by
  induction batch with
  | nil => intro c r hr; simp at hr
  | cons x rest ih =>
    intro c r hr l hl
    rcases List.mem_cons.mp hr with rfl | hr
    · have h1 : l ≤ advance c r := by
        simp only [advance, hl]
        exact le_max_right _ _
      exact le_trans h1 (le_runningMax rest _)
    · exact ih _ r hr l hl

theorem runningMax_mem (batch : List RawTransaction) :
    ∀ c, runningMax c batch = c ∨ ∃ r ∈ batch, ltOf r = some (runningMax c batch) := by
  induction batch with
  | nil => intro c; exact Or.inl rfl
  | cons x rest ih =>
    intro c
    have hstep : runningMax c (x :: rest) = runningMax (advance c x) rest := rfl
    rw [hstep]
    rcases ih (advance c x) with h | ⟨r, hr, hl⟩
    · rw [h]
      unfold advance
      cases hx : ltOf x with
      | none => exact Or.inl rfl
      | some l =>
        simp only []
        rcases max_cases c l with ⟨hm, _⟩ | ⟨hm, _⟩
        · exact Or.inl hm
        · exact Or.inr ⟨x, List.mem_cons_self _ _, by rw [hm]; exact hx⟩
    · exact Or.inr ⟨r, List.mem_cons_of_mem _ hr, hl⟩

theorem creditIfMatched_frame (s : State) (v : Int) (uid : String) (ok : Bool) :
    (creditIfMatched s v uid ok).lastLT = s.lastLT ∧
      (creditIfMatched s v uid ok).saved = s.saved ∧
      (creditIfMatched s v uid ok).file = s.file := by
  simp only [creditIfMatched]
  split_ifs <;> simp

theorem loopBody_ok_cases (s s' : State) (tx : Any) (h : loopBody s tx = .ok s') :
    s' = s ∨ ∃ (l v : Int) (uid : String) (ok : Bool), s.lastLT < l ∧
      s' = saveLastLT { creditIfMatched s v uid ok with lastLT := l } l := by
  unfold loopBody at h
  split at h
  · exact absurd h (by simp)
  · split at h
    · exact absurd h (by simp)
    · split at h
      · exact absurd h (by simp)
      · simp only [] at h
        split_ifs at h with h1 h2
        · left; injection h with h; exact h.symm
        · left; injection h with h; exact h.symm
        · split at h
          · exact absurd h (by simp)
          · split at h
            · exact absurd h (by simp)
            · right
              injection h with h
              exact ⟨_, _, _, _, by omega, h.symm⟩

theorem loopBody_ordered (s s' : State) (tx : Any) (h : loopBody s tx = .ok s')
    (hs : SavedOrdered s) : s.lastLT ≤ s'.lastLT ∧ SavedOrdered s' := by
  rcases loopBody_ok_cases s s' tx h with rfl | ⟨l, v, uid, ok, hl, rfl⟩
  · exact ⟨le_refl _, hs⟩
  · obtain ⟨h1, h2, _⟩ := creditIfMatched_frame s v uid ok
    refine ⟨by simp [saveLastLT]; omega, ?_, ?_⟩
    · intro x hx
      simp only [saveLastLT, h2, List.mem_append, List.mem_singleton] at hx ⊢
      rcases hx with hx | rfl
      · have := hs.1 x hx
        omega
      · exact le_refl _
    · simp only [saveLastLT, h2, List.pairwise_append, List.pairwise_cons, List.mem_singleton]
      refine ⟨hs.2, ⟨by simp, List.Pairwise.nil⟩, ?_⟩
      intro a ha b hb
      have := hs.1 a ha
      omega

theorem loopBody_mono (s s' : State) (tx : Any) (h : loopBody s tx = .ok s') :
    s.lastLT ≤ s'.lastLT := by
  rcases loopBody_ok_cases s s' tx h with rfl | ⟨l, v, uid, ok, hl, rfl⟩
  · exact le_refl _
  · simp [saveLastLT]; omega

theorem rangeLoop_ordered (txs : List Any) :
    ∀ s : State, (SavedOrdered s → SavedOrdered (rangeLoop s txs).state) ∧
      s.lastLT ≤ (rangeLoop s txs).state.lastLT := by
  induction txs with
  | nil => intro s; exact ⟨fun h => h, le_refl _⟩
  | cons tx rest ih =>
    intro s
    simp only [rangeLoop]
    cases hb : loopBody s tx with
    | error e => exact ⟨fun h => h, le_refl _⟩
    | ok s1 =>
      simp only []
      refine ⟨fun h => (ih s1).1 (loopBody_ordered s s1 tx hb h).2, ?_⟩
      exact le_trans (loopBody_mono s s1 tx hb) (ih s1).2

theorem cycle_ordered (s : State) (resp : Response) :
    (SavedOrdered s → SavedOrdered (cycle s resp).state) ∧
      s.lastLT ≤ (cycle s resp).state.lastLT := by
  unfold cycle
  cases resp with
  | getFailed => exact ⟨fun h => h, le_refl _⟩
  | unmarshalFailed => exact ⟨fun h => h, le_refl _⟩
  | decoded result =>
    simp only []
    cases assertSlice (index result "result") with
    | error e => exact ⟨fun h => h, le_refl _⟩
    | ok txs => exact rangeLoop_ordered txs s

theorem runCycles_ordered (resps : List Response) :
    ∀ s : State, (SavedOrdered s → SavedOrdered (runCycles s resps).state) ∧
      s.lastLT ≤ (runCycles s resps).state.lastLT := by
  induction resps with
  | nil => intro s; exact ⟨fun h => h, le_refl _⟩
  | cons resp rest ih =>
    intro s
    have hc := cycle_ordered s resp
    simp only [runCycles]
    cases hcy : cycle s resp with
    | panicked s1 =>
      rw [hcy] at hc
      exact hc
    | running s1 =>
      rw [hcy] at hc
      simp only [Outcome.state] at hc
      exact ⟨fun h => (ih s1).1 (hc.1 h), le_trans hc.2 (ih s1).2⟩

theorem stepTx_noop (s : State) (r : RawTransaction)
    (h : ∀ l, ltOf r = some l → l ≤ s.lastLT) : stepTx s r = s := by
  unfold stepTx
  by_cases h1 : (Atoi r.lt).err = none
  · have := h (Atoi r.lt).val (by simp [ltOf, h1])
    simp [h1, this]
  · simp [h1]

theorem foldl_stepTx_noop (batch : List RawTransaction) (s : State)
    (h : ∀ r ∈ batch, ∀ l, ltOf r = some l → l ≤ s.lastLT) : batch.foldl stepTx s = s := by
  induction batch with
  | nil => rfl
  | cons r rest ih =>
    rw [List.foldl_cons, stepTx_noop s r (h r (List.mem_cons_self _ _))]
    exact ih (fun x hx => h x (List.mem_cons_of_mem _ hx))

theorem ltOf_range (r : RawTransaction) (l : Int) (h : ltOf r = some l) :
    minInt ≤ l ∧ l ≤ maxInt := by
  unfold ltOf at h
  split_ifs at h with h1
  injection h with h
  rw [← h]
  exact Atoi_ok_range r.lt h1

theorem loadLastLT_saveLastLT (s : State) (n : Int) (h1 : minInt ≤ n) (h2 : n ≤ maxInt) :
    loadLastLT (saveLastLT s n).file = n := by
  simp [loadLastLT, saveLastLT, Atoi_Itoa n h1 h2]

theorem classify_some (r : RawTransaction) (p : PaymentIntent) (h : classify r = some p) :
    ltOf r = some p.lt ∧ (Atoi r.value).err = none ∧ (Atoi r.value).val = p.amount ∧
      0 < p.amount ∧
      ∃ c, r.comment = some c ∧ (Atoi c).err = none ∧ (Atoi c).val = p.userID := by
  rcases r with ⟨lt, value, comment⟩
  unfold classify at h
  unfold ltOf
  simp only [] at h ⊢
  by_cases h1 : (Atoi lt).err = none
  · by_cases h2 : (Atoi value).err = none
    · by_cases h3 : (Atoi value).val ≤ 0
      · simp [h1, h2, h3] at h
      · cases comment with
        | none => simp [h1, h2, h3] at h
        | some c =>
          by_cases h4 : (Atoi c).err = none
          · simp [h1, h2, h3, h4] at h
            rw [← h]
            simp [h1, h2, h4]
            omega
          · simp [h1, h2, h3, h4] at h
    · simp [h1, h2] at h
  · simp [h1] at h

theorem nondigit_split (cs : List Char) (h : ¬ allDigits cs) :
    ∃ c rest, cs = cs.takeWhile isDigitByte ++ c :: rest ∧ isDigitByte c = false := by
  have hdrop : cs.dropWhile isDigitByte ≠ [] := by
    intro h0
    exact h (fun c hc => (List.dropWhile_eq_nil_iff.mp h0) c hc)
  obtain ⟨c, rest, hcr⟩ := List.exists_cons_of_ne_nil hdrop
  refine ⟨c, rest, ?_, ?_⟩
  · rw [← hcr]
    exact (List.takeWhile_append_dropWhile isDigitByte cs).symm
  · have := List.head_dropWhile_not isDigitByte cs hdrop
    simp only [hcr, List.head_cons] at this
    simpa using this

theorem stepTx_unknown_user (s : State) (r : RawTransaction) (c : String)
    (hc : r.comment = some c) (hno : checkUser s.users (Atoi c).val = false) :
    (stepTx s r).users = s.users ∧ (stepTx s r).sent = s.sent := by
  unfold stepTx
  split_ifs
  · exact ⟨rfl, rfl⟩
  · exact ⟨rfl, rfl⟩
  · simp only [saveLastLT, creditIfMatched, hc, Option.getD_some, hno]
    split_ifs <;> simp_all

theorem Atoi_Itoa_val (n : Int) : (Atoi (Itoa n)).val = clampInt n := by
  obtain ⟨hd, hne, hv⟩ := toDigits_spec n.natAbs
  simp only [clampInt, minInt, maxInt]
  by_cases hn : n < 0
  · have hdata : (Itoa n).data = '-' :: Nat.toDigits 10 n.natAbs := by
      simp [Itoa, hn]
    have hstrip : stripSign (Itoa n).data = Nat.toDigits 10 n.natAbs := by
      rw [hdata]; simp [stripSign]
    have hneg : isNeg (Itoa n).data = true := by
      rw [hdata]; simp [isNeg]
    rw [Atoi_of_digits (Itoa n) (by rw [hstrip]; exact hne) (by rw [hstrip]; exact hd)]
    rw [hstrip, hv, if_pos hneg]
    simp only [minInt]
    split_ifs <;> simp only [] <;> omega
  · have hdata : (Itoa n).data = Nat.toDigits 10 n.natAbs := by
      simp [Itoa, hn]
    obtain ⟨hs, hnn⟩ := stripSign_of_digits hd
    have hstrip : stripSign (Itoa n).data = Nat.toDigits 10 n.natAbs := by
      rw [hdata]; exact hs
    have hneg : ¬ isNeg (Itoa n).data = true := by
      rw [hdata, hnn]; simp
    rw [Atoi_of_digits (Itoa n) (by rw [hstrip]; exact hne) (by rw [hstrip]; exact hd)]
    rw [hstrip, hv, if_neg hneg]
    simp only [maxInt]
    split_ifs <;> simp only [] <;> omega

theorem loadLastLT_saveLastLT_clamp (s : State) (n : Int) :
    loadLastLT (saveLastLT s n).file = clampInt n := by
  simp [loadLastLT, saveLastLT, Atoi_Itoa_val n]

theorem le_clampInt_of_range (l m : Int) (h2 : l ≤ maxInt) (h : l ≤ m) :
    l ≤ clampInt m := by
  unfold clampInt
  split_ifs <;> omega

theorem credits_advance (u c : Int) (x r : RawTransaction)
    (h : ∀ la lb, ltOf x = some la → ltOf r = some lb → la < lb) :
    credits u (advance c x) r = credits u c r := by
  unfold credits
  cases hp : classify r with
  | none => rfl
  | some p =>
    have hl := (classify_some r p hp).1
    simp only []
    unfold advance
    cases hx : ltOf x with
    | none => rfl
    | some lx =>
      have := h lx p.lt hx hl
      simp only []
      have hiff : (max c lx < p.lt) ↔ (c < p.lt) := by
        constructor
        · intro h1; exact lt_of_le_of_lt (le_max_left _ _) h1
        · intro h1; exact max_lt h1 this
      simp only [hiff]

theorem runningCredit_ascending (u : Int) (batch : List RawTransaction) :
    ∀ c : Int,
      batch.Pairwise (fun a b => ∀ la lb, ltOf a = some la → ltOf b = some lb → la < lb) →
      runningCredit u c batch = claimedCredit u c batch := by
  induction batch with
  | nil => intro c _; rfl
  | cons x rest ih =>
    intro c h
    obtain ⟨hx, hrest⟩ := List.pairwise_cons.mp h
    have hmap : rest.map (credits u (advance c x)) = rest.map (credits u c) :=
      List.map_congr_left (fun r hr => credits_advance u c x r (hx r hr))
    simp only [runningCredit, claimedCredit, List.map_cons, List.sum_cons]
    rw [ih (advance c x) hrest]
    simp only [claimedCredit, hmap]

theorem credits_nonneg (u m : Int) (r : RawTransaction) : 0 ≤ credits u m r := by
  unfold credits
  cases hp : classify r with
  | none => exact le_refl _
  | some p =>
    have := (classify_some r p hp).2.2.2.1
    simp only []
    split_ifs <;> omega

theorem runningCredit_nonneg (u : Int) (batch : List RawTransaction) :
    ∀ m : Int, 0 ≤ runningCredit u m batch := by
  induction batch with
  | nil => intro m; exact le_refl _
  | cons r rest ih =>
    intro m
    have h1 := credits_nonneg u m r
    have h2 := ih (advance m r)
    simp only [runningCredit]
    omega

theorem stepTx_users (s : State) (r : RawTransaction) (u b : Int)
    (hu : s.users u = some (.integer b)) (hb : minInt ≤ b)
    (hsum : b + credits u s.lastLT r ≤ maxInt)
    (hs : creditedUnparsed u s.lastLT r = false) :
    (stepTx s r).users u = some (.integer (b + credits u s.lastLT r)) := by
  rcases r with ⟨lt, value, comment⟩
  unfold credits classify at hsum ⊢
  unfold stepTx creditIfMatched
  unfold creditedUnparsed at hs
  simp only [] at hsum hs ⊢
  by_cases h1 : (Atoi lt).err = none
  · by_cases h2 : (Atoi lt).val ≤ s.lastLT
    · have h2' : ¬ s.lastLT < (Atoi lt).val := by omega
      simp only [h1, h2, ne_eq, not_true_eq_false, if_false, if_true]
      split_ifs
      · simp [hu]
      · cases comment with
        | none => simp [hu]
        | some c =>
          simp only []
          split_ifs <;> simp [hu, h2']
    · have h2' : s.lastLT < (Atoi lt).val := by omega
      simp only [h1, h2, ne_eq, not_true_eq_false, if_false, saveLastLT]
      by_cases h4 : (Atoi value).val ≤ 0
      · have h4' : ¬ (Atoi value).val > 0 := by omega
        simp [h4, h4', hu]
      · have h4' : (Atoi value).val > 0 := by omega
        cases comment with
        | none =>
          by_cases h3 : (Atoi value).err = none
          · simp [h3, h4, hu]
          · simp [h3, h4, hu]
        | some c =>
          by_cases h5 : (Atoi c).err = none
          · by_cases h7 : (Atoi c).val = u
            · subst h7
              have h6 : checkUser s.users (Atoi c).val = true := by
                simp [checkUser, hu]
              have h3 : (Atoi value).err = none := by
                by_contra h3
                simp [h1, h2', h3, h4', h5] at hs
              simp only [h1, h3, h4, h5, h2', ne_eq, not_true_eq_false, or_self, if_false,
                and_self, if_true] at hsum
              have hrange : minInt ≤ b + (Atoi value).val ∧ b + (Atoi value).val ≤ maxInt :=
                ⟨by omega, hsum⟩
              simp [h3, h4, h4', h5, h6, h2', addBalance, hu, Balance.add, hrange]
            · have h7' : ¬ u = (Atoi c).val := fun h => h7 h.symm
              by_cases h3 : (Atoi value).err = none
              · by_cases h6 : checkUser s.users (Atoi c).val = true
                · simp [h3, h4, h4', h5, h6, h2', addBalance, hu, h7, h7']
                · simp [h3, h4, h4', h5, h6, h2', hu, h7]
              · by_cases h6 : checkUser s.users (Atoi c).val = true
                · simp [h3, h4, h4', h5, h6, h2', addBalance, hu, h7, h7']
                · simp [h3, h4, h4', h5, h6, h2', hu, h7]
          · by_cases h3 : (Atoi value).err = none
            · simp [h3, h4, h4', h5, hu]
            · simp [h3, h4, h4', h5, hu]
  · simp [h1, hu]

theorem foldl_stepTx_users (batch : List RawTransaction) :
    ∀ (s : State) (u b : Int), s.users u = some (.integer b) → minInt ≤ b →
      b + runningCredit u s.lastLT batch ≤ maxInt →
      anyCreditedUnparsed u s.lastLT batch = false →
      (batch.foldl stepTx s).users u =
        some (.integer (b + runningCredit u s.lastLT batch)) := by
  induction batch with
  | nil => intro s u b hu _ _ _; simp [runningCredit, hu]
  | cons r rest ih =>
    intro s u b hu hb hsum hs
    simp only [anyCreditedUnparsed, Bool.or_eq_false_iff] at hs
    simp only [runningCredit] at hsum
    have hc := credits_nonneg u s.lastLT r
    have hr := runningCredit_nonneg u rest (advance s.lastLT r)
    have h1 := stepTx_users s r u b hu hb (by omega) hs.1
    have h2 := ih (stepTx s r) u _ h1 (by omega)
      (by rw [stepTx_lastLT]; omega) (by rw [stepTx_lastLT]; exact hs.2)
    simp only [List.foldl_cons, runningCredit]
    rw [h2, stepTx_lastLT, add_assoc]

/-! ## The reference scenario and the checkpoint of a batch -/

/-- C10. Reference scenario: from checkpoint 100, with account 42 at balance 0,
one cycle over the batch `[{lt:"101", value:"5000000000", comment:"42"},
{lt:"99", value:"1", comment:"42"}]` ends with the balance of account 42 at
5000000000 and the checkpoint at 101; the `lt` 99 record leaves the state it
meets unchanged (no credit, no checkpoint change). -/
theorem reference_scenario (users : Int → Option Balance) (file : Option String)
    (h : users 42 = some (.integer 0)) :
    ∃ s1 : State,
      loopBody ⟨100, users, file, [], []⟩
          (RawTransaction.toAny ⟨"101", "5000000000", some "42"⟩) = .ok s1 ∧
      loopBody s1 (RawTransaction.toAny ⟨"99", "1", some "42"⟩) = .ok s1 ∧
      cycle ⟨100, users, file, [], []⟩
          (feedOf [⟨"101", "5000000000", some "42"⟩, ⟨"99", "1", some "42"⟩]) = .running s1 ∧
      s1.users 42 = some (.integer 5000000000) ∧ s1.lastLT = 101 ∧
      s1.saved = [101] ∧ s1.sent = [(42, 5000000000)] := by
  have e1 : Atoi "101" = ⟨101, none⟩ := by decide
  have e2 : Atoi "5000000000" = ⟨5000000000, none⟩ := by decide
  have e3 : Atoi "42" = ⟨42, none⟩ := by decide
  have e4 : Atoi "99" = ⟨99, none⟩ := by decide
  have hlast : (stepTx ⟨100, users, file, [], []⟩ ⟨"101", "5000000000", some "42"⟩).lastLT
      = 101 := by
    simp [stepTx, e1, saveLastLT]
  have hskip : stepTx (stepTx ⟨100, users, file, [], []⟩ ⟨"101", "5000000000", some "42"⟩)
      ⟨"99", "1", some "42"⟩ = stepTx ⟨100, users, file, [], []⟩ ⟨"101", "5000000000", some "42"⟩ := by
    apply stepTx_noop
    intro l hl
    rw [hlast]
    simp [ltOf, e4] at hl
    omega
  refine ⟨stepTx ⟨100, users, file, [], []⟩ ⟨"101", "5000000000", some "42"⟩,
    loopBody_toAny _ _, ?_, ?_, ?_, hlast, ?_, ?_⟩
  · rw [loopBody_toAny, hskip]
  · rw [cycle_feedOf]
    simp only [List.foldl_cons, List.foldl_nil, hskip]
  · simp [stepTx, e1, e2, e3, saveLastLT, creditIfMatched, checkUser, h, addBalance,
      Balance.add, minInt, maxInt]
  · simp [stepTx, e1, saveLastLT, (creditIfMatched_frame _ _ _ _).2.1]
  · simp [stepTx, e1, e2, e3, saveLastLT, creditIfMatched, checkUser, h]

/-- The reference scenario on the table that holds account 42 alone. -/
theorem reference_scenario_witness :
    ∃ s1 : State,
      loopBody ⟨100, oneAccount 42 0, none, [], []⟩
          (RawTransaction.toAny ⟨"101", "5000000000", some "42"⟩) = .ok s1 ∧
      loopBody s1 (RawTransaction.toAny ⟨"99", "1", some "42"⟩) = .ok s1 ∧
      cycle ⟨100, oneAccount 42 0, none, [], []⟩
          (feedOf [⟨"101", "5000000000", some "42"⟩, ⟨"99", "1", some "42"⟩]) = .running s1 ∧
      s1.users 42 = some (.integer 5000000000) ∧ s1.lastLT = 101 ∧
      s1.saved = [101] ∧ s1.sent = [(42, 5000000000)] :=
  reference_scenario (oneAccount 42 0) none (by decide)

/-- C4. Unordered-batch correctness: for every prior checkpoint and every
non-empty batch, in any order, whose records are all payment intents for
existing accounts with `lt` above the checkpoint, the checkpoint after the
cycle is the maximum `lt` of the batch (the `lt` of one of its records, and no
record has a larger one); for the batch `[{lt:5}, {lt:3}]` and a checkpoint
below 3 the checkpoint after the cycle is 5. -/
theorem unordered_batch_checkpoint :
    (∀ (s : State) (batch : List RawTransaction), batch ≠ [] →
      (∀ r ∈ batch, ∃ p, classify r = some p ∧ s.lastLT < p.lt ∧
        checkUser s.users p.userID = true) →
      (cycle s (feedOf batch)).isPanic = false ∧
      (∃ r ∈ batch, ltOf r = some (cycle s (feedOf batch)).state.lastLT) ∧
      (∀ r ∈ batch, ∀ l, ltOf r = some l → l ≤ (cycle s (feedOf batch)).state.lastLT)) ∧
    (∀ (s : State) (v1 v2 : String) (c1 c2 : Option String), s.lastLT < 3 →
      (cycle s (feedOf [⟨"5", v1, c1⟩, ⟨"3", v2, c2⟩])).state.lastLT = 5) := by
  constructor
  · intro s batch hne hall
    have hlast : (cycle s (feedOf batch)).state.lastLT = runningMax s.lastLT batch := by
      rw [cycle_feedOf]
      exact foldl_stepTx_lastLT batch s
    rw [hlast]
    refine ⟨by rw [cycle_feedOf]; rfl, ?_, runningMax_ge batch s.lastLT⟩
    rcases runningMax_mem batch s.lastLT with h | h
    · exfalso
      obtain ⟨r, rest, rfl⟩ := List.exists_cons_of_ne_nil hne
      obtain ⟨p, hp, hlt, _⟩ := hall r (List.mem_cons_self _ _)
      have hl : ltOf r = some p.lt := (classify_some r p hp).1
      have := runningMax_ge (r :: rest) s.lastLT r (List.mem_cons_self _ _) p.lt hl
      omega
    · exact h
  · intro s v1 v2 c1 c2 hc
    have e5 : Atoi "5" = ⟨5, none⟩ := by decide
    have e3 : Atoi "3" = ⟨3, none⟩ := by decide
    rw [cycle_feedOf]
    show (List.foldl stepTx s [⟨"5", v1, c1⟩, ⟨"3", v2, c2⟩]).lastLT = 5
    rw [foldl_stepTx_lastLT]
    simp only [runningMax, List.foldl_cons, List.foldl_nil, advance, ltOf, e5, e3, if_true]
    omega

/-- The batch `[{lt:"5"}, {lt:"3"}]` from checkpoint 0: the checkpoint ends
at 5. -/
theorem unordered_batch_checkpoint_witness :
    (cycle ⟨0, oneAccount 42 0, none, [], []⟩
      (feedOf [⟨"5", "1", some "42"⟩, ⟨"3", "1", some "42"⟩])).state.lastLT = 5 ∧
    (∃ r ∈ [(⟨"5", "1", some "42"⟩ : RawTransaction), ⟨"3", "1", some "42"⟩],
      ltOf r = some (cycle ⟨0, oneAccount 42 0, none, [], []⟩
        (feedOf [⟨"5", "1", some "42"⟩, ⟨"3", "1", some "42"⟩])).state.lastLT) :=
  ⟨unordered_batch_checkpoint.2 ⟨0, oneAccount 42 0, none, [], []⟩ "1" "1" (some "42")
      (some "42") (by decide),
    (unordered_batch_checkpoint.1 ⟨0, oneAccount 42 0, none, [], []⟩
      [⟨"5", "1", some "42"⟩, ⟨"3", "1", some "42"⟩] (by simp) (by
        intro r hr
        simp only [List.mem_cons, List.mem_singleton, List.not_mem_nil, or_false] at hr
        rcases hr with rfl | rfl
        · exact ⟨⟨42, 1, 5⟩, by decide, by decide, by decide⟩
        · exact ⟨⟨42, 1, 3⟩, by decide, by decide, by decide⟩)).2.1⟩

/-! ## Credits of a cycle -/

/-- C1, the claim as stated fails: from checkpoint 0, the batch
`[{lt:"5", value:"1", comment:"42"}, {lt:"3", value:"1", comment:"42"}]` holds
two records above the checkpoint that name account 42, worth 2 together, and
the cycle credits 1: the record of `lt` 3 comes after the one of `lt` 5 and is
skipped. -/
theorem later_lower_lt_not_credited :
    claimedCredit 42 0 [⟨"5", "1", some "42"⟩, ⟨"3", "1", some "42"⟩] = 2 ∧
      (cycle ⟨0, oneAccount 42 0, none, [], []⟩
        (feedOf [⟨"5", "1", some "42"⟩, ⟨"3", "1", some "42"⟩])).state.users 42 =
          some (.integer 1) := by
  decide

/-- C1, as amended. For every state at the start of a cycle, every batch and
every existing account whose balance is a 64-bit integer `b`, if `b` plus the
sum below is of the 64-bit range, and no record of the batch is credited to
the account on a value string that did not parse, the cycle ends without a
panic and the balance of the account grows by exactly the sum of the values of
the records that name it, whose value parses as a positive integer and whose
`lt` parses and is greater than the running checkpoint: the maximum of the
checkpoint held at the start of the cycle and of the parsable `lt` values of
the records before it in the batch.  When the parsable `lt` values of the
batch are in ascending order, that is the sum over the records whose `lt` is
greater than the checkpoint held at the start of the cycle. -/
theorem credits_against_running_checkpoint (s : State) (batch : List RawTransaction)
    (u b : Int) (hu : s.users u = some (.integer b))
    (hb : minInt ≤ b ∧ b ≤ maxInt)
    (hsum : b + runningCredit u s.lastLT batch ≤ maxInt)
    (hv : anyCreditedUnparsed u s.lastLT batch = false) :
    (cycle s (feedOf batch)).isPanic = false ∧
      (cycle s (feedOf batch)).state.users u =
        some (.integer (b + runningCredit u s.lastLT batch)) ∧
      (batch.Pairwise (fun x y => ∀ lx ly, ltOf x = some lx → ltOf y = some ly → lx < ly) →
        (cycle s (feedOf batch)).state.users u =
          some (.integer (b + claimedCredit u s.lastLT batch))) := by
  rw [cycle_feedOf]
  refine ⟨rfl, foldl_stepTx_users batch s u b hu hb.1 hsum hv, fun hasc => ?_⟩
  rw [← runningCredit_ascending u batch s.lastLT hasc]
  exact foldl_stepTx_users batch s u b hu hb.1 hsum hv

/-- The amended statement on the batch of the counterexample: account 42 is
credited 1. -/
theorem credits_against_running_checkpoint_witness :
    (cycle ⟨0, oneAccount 42 0, none, [], []⟩
        (feedOf [⟨"5", "1", some "42"⟩, ⟨"3", "1", some "42"⟩])).state.users 42 =
        some (.integer (0 + runningCredit 42 0 [⟨"5", "1", some "42"⟩, ⟨"3", "1", some "42"⟩])) :=
  (credits_against_running_checkpoint ⟨0, oneAccount 42 0, none, [], []⟩
    [⟨"5", "1", some "42"⟩, ⟨"3", "1", some "42"⟩] 42 0 (by decide) (by decide) (by decide)
    (by decide)).2.1

/-- C7. Unknown-user safety: a record whose comment parses to a user id with
no account makes no credit, creates no account and sends nothing (the `Users`
table and the notifications after it are those before it), and it does not
stop the cycle: the records after it are processed from the state it leaves. -/
theorem unknown_user_safe (s : State) (r : RawTransaction) (rest : List Any) (c : String)
    (hc : r.comment = some c) (hparse : (Atoi c).err = none)
    (hno : checkUser s.users (Atoi c).val = false) :
    ∃ s1 : State, loopBody s r.toAny = .ok s1 ∧ s1.users = s.users ∧ s1.sent = s.sent ∧
      rangeLoop s (r.toAny :: rest) = rangeLoop s1 rest := by
  have _ := hparse
  obtain ⟨h1, h2⟩ := stepTx_unknown_user s r c hc hno
  refine ⟨stepTx s r, loopBody_toAny s r, h1, h2, ?_⟩
  simp only [rangeLoop, loopBody_toAny]

/-- A deposit for user 7, who has no account, followed by one for account
42. -/
theorem unknown_user_safe_witness :
    ∃ s1 : State,
      loopBody ⟨0, oneAccount 42 0, none, [], []⟩
        (RawTransaction.toAny ⟨"5", "1", some "7"⟩) = .ok s1 ∧
      s1.users = oneAccount 42 0 ∧ s1.sent = [] ∧
      rangeLoop ⟨0, oneAccount 42 0, none, [], []⟩
        [RawTransaction.toAny ⟨"5", "1", some "7"⟩, RawTransaction.toAny ⟨"6", "1", some "42"⟩] =
        rangeLoop s1 [RawTransaction.toAny ⟨"6", "1", some "42"⟩] :=
  unknown_user_safe ⟨0, oneAccount 42 0, none, [], []⟩ ⟨"5", "1", some "7"⟩
    [RawTransaction.toAny ⟨"6", "1", some "42"⟩] "7" rfl (by decide) (by decide)

/-- C6, the code at the failing input. The value string `9223372036854775808`
(2^63) does not parse: `strconv.Atoi` reports a range error and returns the
largest `int`; line 123 drops the error, and the record is credited with
9223372036854775807. -/
theorem out_of_range_value_is_credited :
    (Atoi "9223372036854775808").err = some .outOfRange ∧
      classify ⟨"1", "9223372036854775808", some "42"⟩ = none ∧
      (cycle ⟨0, oneAccount 42 0, none, [], []⟩
        (feedOf [⟨"1", "9223372036854775808", some "42"⟩])).state.users 42 =
        some (.integer 9223372036854775807) := by
  decide

/-! ## Shapes of the response -/

/-- C8, the code at failing inputs. A decoded body without a `result` key
(the error body `{"ok":false,"error":"...","code":429}`), a `result` that is
not an array, a record without `transaction_id`, and an `lt` that is a number
each stop the cycle with a panic; a record that is not an object stops the
loop before the records after it. -/
theorem malformed_feed_panics (s : State) :
    (cycle s (.decoded [("ok", .bool false), ("error", .str "Ratelimit exceed"),
        ("code", .num "429")])).isPanic = true ∧
      (cycle s (.decoded [("ok", .bool true), ("result", .str "none")])).isPanic = true ∧
      (cycle s (.decoded [("result", .arr [.obj [("in_msg", .obj [("value", .str "1")])]])])).isPanic
        = true ∧
      (cycle s (.decoded [("result", .arr [.obj [("transaction_id", .obj [("lt", .num "5")]),
        ("in_msg", .obj [("value", .str "1")])]])])).isPanic = true ∧
      (∀ rest : List Any, rangeLoop s (Any.nil :: rest) = .panicked s) := by
  refine ⟨?_, ?_, ?_, ?_, ?_⟩
  · simp [cycle, index, List.lookup, assertSlice, Outcome.isPanic]
  · simp [cycle, index, List.lookup, assertSlice, Outcome.isPanic]
  · simp [cycle, index, List.lookup, assertSlice, rangeLoop, loopBody, assertMap, Outcome.isPanic]
  · simp [cycle, index, List.lookup, assertSlice, rangeLoop, loopBody, assertMap, assertString,
      Outcome.isPanic]
  · intro rest
    simp [rangeLoop, loopBody, assertMap]

/-! ## The checkpoint -/

/-- C3. Monotonic checkpoint: `lastLT` never decreases, neither over one
processed record, nor over one cycle, nor over any finite sequence of polls
(whatever the responses hold, in any order, and also when a panic ends the
run), and the values passed to `saveLastLT` in a run, from any starting
checkpoint and from the one `startDepositChecker` loads, are strictly
increasing in the order of the calls. -/
theorem checkpoint_monotonic :
    (∀ (s s1 : State) (tx : Any), loopBody s tx = .ok s1 → s.lastLT ≤ s1.lastLT) ∧
      (∀ (s : State) (resp : Response), s.lastLT ≤ (cycle s resp).state.lastLT) ∧
      (∀ (s : State) (resps : List Response), s.lastLT ≤ (runCycles s resps).state.lastLT) ∧
      (∀ (c : Int) (users : Int → Option Balance) (file : Option String) (resps : List Response),
        (runCycles ⟨c, users, file, [], []⟩ resps).state.saved.Pairwise (fun a b => a < b)) ∧
      (∀ (users : Int → Option Balance) (file : Option String) (resps : List Response),
        (startDepositChecker users file resps).state.saved.Pairwise (fun a b => a < b)) := by
  have hrun : ∀ (c : Int) (users : Int → Option Balance) (file : Option String)
      (resps : List Response),
      (runCycles ⟨c, users, file, [], []⟩ resps).state.saved.Pairwise (fun a b => a < b) := by
    intro c users file resps
    have h0 : SavedOrdered ⟨c, users, file, [], []⟩ :=
      ⟨fun x hx => by simp at hx, List.Pairwise.nil⟩
    exact ((runCycles_ordered resps _).1 h0).2
  exact ⟨fun s s1 tx h => loopBody_mono s s1 tx h, fun s resp => (cycle_ordered s resp).2,
    fun s resps => (runCycles_ordered resps s).2, hrun,
    fun users file resps => hrun (loadLastLT file) users file resps⟩

/-- One record of `lt` 5 processed from checkpoint 0: the checkpoint does not
decrease. -/
theorem checkpoint_monotonic_witness :
    (0 : Int) ≤ (stepTx ⟨0, oneAccount 42 0, none, [], []⟩ ⟨"5", "1", some "42"⟩).lastLT :=
  checkpoint_monotonic.1 ⟨0, oneAccount 42 0, none, [], []⟩ _
    (RawTransaction.toAny ⟨"5", "1", some "42"⟩) (loopBody_toAny _ _)

/-- C5, the claim as stated fails: the record `{lt:"7", value:"0",
comment:"x"}` yields no payment intent and is not credited, and the cycle
moves the checkpoint from 0 to 7. -/
theorem skipped_record_advances_checkpoint :
    classify ⟨"7", "0", some "x"⟩ = none ∧
      (cycle ⟨0, oneAccount 42 0, none, [], []⟩
        (feedOf [⟨"7", "0", some "x"⟩])).state.users 42 = some (.integer 0) ∧
      (cycle ⟨0, oneAccount 42 0, none, [], []⟩
        (feedOf [⟨"7", "0", some "x"⟩])).state.lastLT = 7 := by
  decide

/-- C5, as amended. The checkpoint advances on every record whose `lt` parses
and is above it, credited or not: a record whose `lt` is unparsable or not
above the checkpoint leaves the whole state unchanged; a record whose `lt`
parses above the checkpoint sets the checkpoint to its `lt`, whatever its
value and its comment are; and after any sequence of cycles the checkpoint is
the maximum of the starting checkpoint and of the parsable `lt` values of all
the records of the batches. -/
theorem checkpoint_advances_on_every_newer_record :
    (∀ (s : State) (r : RawTransaction), (∀ l, ltOf r = some l → l ≤ s.lastLT) →
        loopBody s r.toAny = .ok s) ∧
      (∀ (s : State) (r : RawTransaction) (l : Int), ltOf r = some l → s.lastLT < l →
        ∃ s1 : State, loopBody s r.toAny = .ok s1 ∧ s1.lastLT = l) ∧
      (∀ (s : State) (batches : List (List RawTransaction)),
        (runCycles s (batches.map feedOf)).isPanic = false ∧
          (runCycles s (batches.map feedOf)).state.lastLT =
            runningMax s.lastLT batches.flatten) := by
  refine ⟨?_, ?_, ?_⟩
  · intro s r h
    rw [loopBody_toAny, stepTx_noop s r h]
  · intro s r l hl hlt
    refine ⟨stepTx s r, loopBody_toAny s r, ?_⟩
    rw [stepTx_lastLT]
    simp only [advance, hl]
    exact max_eq_right (le_of_lt hlt)
  · intro s batches
    rw [runCycles_feedOf]
    exact ⟨rfl, foldl_stepTx_lastLT _ s⟩

/-- The record of the counterexample: its `lt` 7 is above the checkpoint 0, it
is not credited, and the checkpoint becomes 7. -/
theorem checkpoint_advances_on_every_newer_record_witness :
    ∃ s1 : State,
      loopBody ⟨0, oneAccount 42 0, none, [], []⟩
        (RawTransaction.toAny ⟨"7", "0", some "x"⟩) = .ok s1 ∧ s1.lastLT = 7 :=
  checkpoint_advances_on_every_newer_record.2.1 ⟨0, oneAccount 42 0, none, [], []⟩
    ⟨"7", "0", some "x"⟩ 7 (by decide) (by decide)

/-- C2. Idempotent replay: for every starting checkpoint, every ledger state
and every batch, after one cycle on the batch, the checkpoint saved and loaded
again, the checkpoint is greater than or equal to every parsable `lt` of the
batch and a second cycle on the same batch changes nothing: no balance, no
notification. -/
theorem idempotent_replay (s : State) (batch : List RawTransaction) :
    (∀ r ∈ batch, ∀ l, ltOf r = some l →
        l ≤ (restart (cycle s (feedOf batch)).state).lastLT) ∧
      cycle (restart (cycle s (feedOf batch)).state) (feedOf batch) =
        .running (restart (cycle s (feedOf batch)).state) ∧
      (cycle (restart (cycle s (feedOf batch)).state) (feedOf batch)).state.users =
        (cycle s (feedOf batch)).state.users ∧
      (cycle (restart (cycle s (feedOf batch)).state) (feedOf batch)).state.sent =
        (cycle s (feedOf batch)).state.sent := by
  have hlast : (restart (cycle s (feedOf batch)).state).lastLT =
      clampInt (runningMax s.lastLT batch) := by
    simp only [restart, cycle_feedOf, Outcome.state, foldl_stepTx_lastLT]
    exact loadLastLT_saveLastLT_clamp _ _
  have hle : ∀ r ∈ batch, ∀ l, ltOf r = some l →
      l ≤ (restart (cycle s (feedOf batch)).state).lastLT := by
    intro r hr l hl
    rw [hlast]
    exact le_clampInt_of_range l _ (ltOf_range r l hl).2 (runningMax_ge batch _ r hr l hl)
  have hcy : cycle (restart (cycle s (feedOf batch)).state) (feedOf batch) =
      .running (restart (cycle s (feedOf batch)).state) := by
    rw [cycle_feedOf (restart _), foldl_stepTx_noop batch _ hle]
  refine ⟨hle, hcy, ?_, ?_⟩
  · rw [hcy]; rfl
  · rw [hcy]; rfl

/-- The batch of the reference scenario replayed after a restart: the
checkpoint loaded is 101 and both records are below or at it. -/
theorem idempotent_replay_witness :
    ∀ r ∈ [(⟨"101", "5000000000", some "42"⟩ : RawTransaction), ⟨"99", "1", some "42"⟩],
      ∀ l, ltOf r = some l →
        l ≤ (restart (cycle ⟨100, oneAccount 42 0, none, [], []⟩
          (feedOf [⟨"101", "5000000000", some "42"⟩, ⟨"99", "1", some "42"⟩])).state).lastLT :=
  (idempotent_replay ⟨100, oneAccount 42 0, none, [], []⟩
    [⟨"101", "5000000000", some "42"⟩, ⟨"99", "1", some "42"⟩]).1

/-! ## The checkpoint file -/

/-- C9, the claim as stated fails: the content `9223372036854775808` is a run
of digits that denotes a value out of the `int` range, and `loadLastLT`
returns 9223372036854775807 for it, not 0. -/
theorem out_of_range_checkpoint_not_zero :
    isDecimal "9223372036854775808" = true ∧
      maxInt < decimalValue "9223372036854775808" ∧
      loadLastLT (some "9223372036854775808") = 9223372036854775807 := by
  decide

/-- C9, as amended. `loadLastLT` returns 0 when the file is absent or
unreadable, and for every content that is not a decimal integer (empty, a lone
sign, a non-digit somewhere, such as a number followed by a newline) unless
the digits it starts with already exceed the `uint64` range, in which case it
returns the bound of the `int` range on the side of its sign; for every
content that is a decimal integer it returns that integer when it is of the
`int` range and the nearest bound of the range, 2^63 - 1 or -2^63, when it is
not; so `loadLastLT` after `saveLastLT(n)` returns `n` for every `n` of the
`int` range. -/
theorem loadLastLT_spec :
    loadLastLT none = 0 ∧
      (∀ s : String, isDecimal s = false → decFold 0 (leadingDigits s) ≤ maxUint64 →
        loadLastLT (some s) = 0) ∧
      (∀ s : String, isDecimal s = false → maxUint64 < decFold 0 (leadingDigits s) →
        loadLastLT (some s) = if isNeg s.data = true then minInt else maxInt) ∧
      (∀ s : String, isDecimal s = true → loadLastLT (some s) = clampInt (decimalValue s)) ∧
      (∀ (st : State) (n : Int), minInt ≤ n → n ≤ maxInt →
        loadLastLT (saveLastLT st n).file = n) := by
  have key : ∀ s : String, isDecimal s = false →
      Atoi s = if decFold 0 (leadingDigits s) ≤ maxUint64 then ⟨0, some .invalid⟩
        else if isNeg s.data = true then ⟨minInt, some .outOfRange⟩
        else ⟨maxInt, some .outOfRange⟩ := by
    intro s hs
    by_cases he : stripSign s.data = []
    · rw [Atoi_of_empty_body s he, if_pos]
      simp [leadingDigits, he, decFold, maxUint64]
    · have hd : ¬ allDigits (stripSign s.data) := by
        intro hd
        have h1 : (stripSign s.data).all isDigitByte = true := List.all_eq_true.mpr hd
        have h2 : (stripSign s.data).isEmpty = false := by
          cases hb : stripSign s.data with
          | nil => exact absurd hb he
          | cons c t => rfl
        simp [isDecimal, h1, h2] at hs
      obtain ⟨c, rest, hsplit, hc⟩ := nondigit_split _ hd
      exact Atoi_of_nondigit s _ c rest hsplit (fun x hx => List.mem_takeWhile_imp hx) hc
  refine ⟨rfl, ?_, ?_, ?_, fun st n h1 h2 => loadLastLT_saveLastLT st n h1 h2⟩
  · intro s hs hle
    simp only [loadLastLT, key s hs, if_pos hle]
  · intro s hs hgt
    simp only [loadLastLT, key s hs, if_neg (not_le.mpr hgt)]
    split_ifs <;> rfl
  · intro s hs
    simp only [isDecimal, Bool.and_eq_true, Bool.not_eq_true', List.isEmpty_eq_false,
      List.all_eq_true] at hs
    have hne : stripSign s.data ≠ [] := by
      intro h0
      rw [h0] at hs
      simp at hs
    simp only [loadLastLT, Atoi_of_digits s hne hs.2, decimalValue, clampInt, minInt, maxInt]
    by_cases hneg : isNeg s.data = true
    · simp only [hneg, if_true]
      split_ifs <;> first | rfl | omega
    · simp only [hneg]
      split_ifs <;> first | rfl | omega

/-- The contents `12` followed by a newline, `9223372036854775808`, and the
file `saveLastLT(101)` writes. -/
theorem loadLastLT_spec_witness :
    loadLastLT (some "12\n") = 0 ∧
      loadLastLT (some "9223372036854775808") = clampInt (decimalValue "9223372036854775808") ∧
      loadLastLT (saveLastLT ⟨0, oneAccount 42 0, none, [], []⟩ 101).file = 101 :=
  ⟨loadLastLT_spec.2.1 "12\n" (by decide) (by decide),
    loadLastLT_spec.2.2.2.1 "9223372036854775808" (by decide),
    loadLastLT_spec.2.2.2.2 ⟨0, oneAccount 42 0, none, [], []⟩ 101 (by decide) (by decide)⟩

end DepositChecker
